import Mathlib

/-!
Shallow embedding of the Build-a-Board chess visualization repository
(`src/etl.js` and `src/visualization.js`).

Conventions of the embedding:
* JS strings are modelled as `String` (counter names) or `List Char`
  (move tokens and raw input lines, where character indexing matters).
* JS numbers holding ratings are modelled as `Option Int`, with `none`
  standing for `NaN` (an unknown rating).
* The counter table (`this.counts`, a `Map` from name to `Counts`) is
  modelled as a total function `String → List Nat`; every key the
  aggregator ever touches is created by its constructor, so the `[]`
  default is only read for keys whose `Counts` object starts out empty.
* Stateful loops become folds / structural recursion; each `class`
  method becomes a function taking the object state explicitly.
-/

namespace Gambit

/-! ### `Counts` (src/etl.js lines 238-276) -/

namespace EtlCounts

/-- `Counts.count(n)` of `src/etl.js`: push zeros until index `n` exists,
then increment slot `n`.  (JS `while (n > this.data.length - 1) push(0)`
pads the array to length `max(length, n+1)`.) -/
def count (data : List Nat) (n : Nat) : List Nat :=
  let padded := data ++ List.replicate (n + 1 - data.length) 0
  padded.set n (padded.getD n 0 + 1)

/-- `Counts.get(n)` of `src/etl.js`: `if (n <= 0 || n >= this.data.length)
return 0; return this.data[n]`.  `n` is an `Int` so that negative queries
are representable. -/
def get (data : List Nat) (n : Int) : Nat :=
  if n ≤ 0 ∨ (data.length : Int) ≤ n then 0
  else data.getD n.toNat 0

end EtlCounts

/-! ### Front-end `Counts` (src/visualization.js lines 3-57) -/

namespace VizCounts

/-- `Counts.count(n, times)` of `src/visualization.js`: pad with zeros,
then add `times` at slot `n`. -/
def count (data : List Nat) (n : Nat) (times : Nat) : List Nat :=
  let padded := data ++ List.replicate (n + 1 - data.length) 0
  padded.set n (padded.getD n 0 + times)

/-- `Counts.get(n)` of `src/visualization.js` (identical to the ETL one). -/
def get (data : List Nat) (n : Int) : Nat :=
  if n ≤ 0 ∨ (data.length : Int) ≤ n then 0
  else data.getD n.toNat 0

/-- The `for (i = 0; i < length - 1; i += 2) push(data[i] + data[i+1])`
loop of `aggregateBy("aggregated")`: pairwise sums, dropping a dangling
last element. -/
def aggPairs : List Nat → List Nat
  | a :: b :: rest => (a + b) :: aggPairs rest
  | _ => []

/-- `data.filter((v, i) => i % 2 === r)`: keep entries whose index has
remainder `r` mod 2, starting the numbering at `n`. -/
def filterIdxFrom (r : Nat) (n : Nat) (l : List Nat) : List Nat :=
  ((l.enumFrom n).filter (fun p => p.1 % 2 = r)).map (fun p => p.2)

/-- `Counts.aggregateBy(aggregation)` of `src/visualization.js`, as a pure
function on the wrapped data.  Any mode other than the three named ones
leaves the data unchanged ("separate"). -/
def aggregateBy (aggregation : String) (data : List Nat) : List Nat :=
  if aggregation = "aggregated" then aggPairs data
  else if aggregation = "white" then filterIdxFrom 0 0 data
  else if aggregation = "black" then filterIdxFrom 1 0 data
  else data

end VizCounts

end Gambit

namespace Gambit

/-! ### The ETL aggregator (src/etl.js lines 217-447) -/

/-- The `PIECES` mapping (src/etl.js lines 218-233): first characters of
algebraic notation to internal piece-category names.  `none` models a
character absent from the JS object (`piece in PIECES` false). -/
def PIECES (c : Char) : Option String :=
  if c = 'a' ∨ c = 'b' ∨ c = 'c' ∨ c = 'd' ∨
     c = 'e' ∨ c = 'f' ∨ c = 'g' ∨ c = 'h' then some "pawn"
  else if c = 'N' then some "knight"
  else if c = 'R' then some "rook"
  else if c = 'O' then some "castling"
  else if c = 'B' then some "bishop"
  else if c = 'K' then some "king"
  else if c = 'Q' then some "queen"
  else none

/-- One of the characters skipped by `getMoveRC`'s trailing-annotation
loop (`"+#?!".indexOf(move[last]) !== -1`). -/
def isAnnotGlyph (c : Char) : Bool :=
  c = '+' || c = '#' || c = '?' || c = '!'

/-- The `while (last > 0 && "+#?!".indexOf(move[last]) !== -1) last--`
loop of `getMoveRC`, run on index `last` into `m`. -/
def skipAnnot (m : List Char) : Nat → Nat
  | 0 => 0
  | k + 1 => if isAnnotGlyph (m.getD (k + 1) ' ') then skipAnnot m k else k + 1

/-- `DataAggregator.getMoveRC` (src/etl.js lines 322-348): extract the
two-character destination of a move, or `none` when it does not resolve.
An empty move string has `last = -1` in JS, skips both adjustments and
fails the `last - 1 < 0` test, hence the separate first branch. -/
def getMoveRC (m : List Char) : Option (List Char) :=
  if m.length = 0 then none
  else
    let last1 := skipAnnot m (m.length - 1)
    let last2 := if 3 ≤ last1 ∧ m.getD (last1 - 1) ' ' = '=' then last1 - 2 else last1
    if last2 = 0 then none
    else
      let c := m.getD (last2 - 1) ' '
      let d := m.getD last2 ' '
      if 'a' ≤ c ∧ c ≤ 'h' ∧ '1' ≤ d ∧ d ≤ '8' then some [c, d] else none

/-- `DataAggregator.eloSuffix` (src/etl.js lines 378-382), for a known
(non-`NaN`) rating. -/
def eloSuffix (elo : Int) : String :=
  if elo < 1225 then "_low"
  else if elo < 1875 then "_mid"
  else "_hi"

/-- The `game.moves[i][0] === 'W' ? game.welo : ... 'B' ? game.belo : NaN`
selection of `processGame` (src/etl.js lines 397-399). -/
def moverElo (welo belo : Option Int) (m : List Char) : Option Int :=
  if m.getD 0 ' ' = 'W' then welo
  else if m.getD 0 ' ' = 'B' then belo
  else none

/-- The `where` value of `processGame` (src/etl.js lines 403-406): the
resolved destination, or the `"castle"` sentinel. -/
def whereName (m : List Char) : String :=
  match getMoveRC m with
  | some rc => String.mk rc
  | none => "castle"

/-- A game record as consumed by `DataAggregator.processGame`: the fields
it reads (`welo`, `belo`, `moves`); `none` ratings model `NaN`.  The
remaining metadata fields (index, date, result, len, origin) are never
read by `processGame` and are omitted. -/
structure Game where
  welo : Option Int
  belo : Option Int
  moves : List (List Char)

/-- The aggregator's counter table `this.counts`: counter name to stored
series. -/
def Agg := String → List Nat

/-- The table right after the `DataAggregator` constructor: every counter
starts as an empty `Counts`. -/
def aggInit : Agg := fun _ => []

/-- `this.counts.get(name).count(i)`: increment counter `name` at ply `i`. -/
def bump (st : Agg) (name : String) (i : Nat) : Agg :=
  fun k => if k = name then EtlCounts.count (st k) i else st k

/-- The body of the `for` loop of `DataAggregator.processGame`
(src/etl.js lines 392-429) for the move `m` at ply `i` of a game with
ratings `welo` / `belo`. -/
def processMove (welo belo : Option Int) (st : Agg) (i : Nat) (m : List Char) : Agg :=
  let st1 := bump st "total" i
  let elo := moverElo welo belo m
  let wh := whereName m
  let st2 :=
    match elo with
    | some e =>
        bump (bump (bump st1 ("total" ++ eloSuffix e) i) ("pos_" ++ wh) i)
          (("pos_" ++ wh) ++ eloSuffix e) i
    | none => st1
  match m.findIdx? (fun c => c = '.') with
  | some d =>
      match PIECES (m.getD (d + 1) ' ') with
      | some cat =>
          let st3 := bump st2 cat i
          match elo with
          | some e => bump st3 (cat ++ eloSuffix e) i
          | none => st3
      | none => st2
  | none => st2

/-- The `for (let i = 0; ...)` loop of `processGame`, processing `ms`
starting at ply index `i`. -/
def processMovesFrom (welo belo : Option Int) (st : Agg) (i : Nat) :
    List (List Char) → Agg
  | [] => st
  | m :: rest => processMovesFrom welo belo (processMove welo belo st i m) (i + 1) rest

/-- `DataAggregator.processGame` (src/etl.js lines 389-436), minus the
progress logging (observability only). -/
def processGame (st : Agg) (g : Game) : Agg :=
  processMovesFrom g.welo g.belo st 0 g.moves

/-- Processing a whole stream of game records, in order, starting from
the freshly constructed aggregator. -/
def processGames (gs : List Game) : Agg :=
  gs.foldl processGame aggInit

/-- The stored count of counter `name` at ply `p` (raw series read;
`0` when the series has not grown that far). -/
def val (st : Agg) (name : String) (p : Nat) : Nat :=
  (st name).getD p 0

/-- The list of counter names incremented (each at ply `i`) by one
iteration of the `processGame` loop on move `m`.  This is a proof-side
restatement of `processMove`; `processMove_eq_bumpAll` ties them. -/
def bumpsOf (welo belo : Option Int) (i : Nat) (m : List Char) : List String :=
  let elo := moverElo welo belo m
  let wh := whereName m
  ["total"] ++
    (match elo with
     | some e => [("total" ++ eloSuffix e), ("pos_" ++ wh), (("pos_" ++ wh) ++ eloSuffix e)]
     | none => []) ++
    (match m.findIdx? (fun c => c = '.') with
     | some d =>
         match PIECES (m.getD (d + 1) ' ') with
         | some cat =>
             match elo with
             | some e => [cat, cat ++ eloSuffix e]
             | none => [cat]
         | none => []
     | none => [])

/-- Fold `bump` over a list of names, all at ply `i`. -/
def bumpAll (st : Agg) (names : List String) (i : Nat) : Agg :=
  names.foldl (fun s n => bump s n i) st

/-- Whether a move is classifiable by piece: it has a `'.'` and the
character after it is a key of `PIECES` (src/etl.js lines 416-419). -/
def classifiable (m : List Char) : Bool :=
  match m.findIdx? (fun c => c = '.') with
  | some d => (PIECES (m.getD (d + 1) ' ')).isSome
  | none => false

/-- The seven piece-category counter names created by the aggregator
constructor from the values of `PIECES`. -/
def pieceCats : List String :=
  ["pawn", "knight", "rook", "bishop", "queen", "king", "castling"]

/-- The three rating-tier suffixes produced by `eloSuffix`. -/
def tierSufs : List String :=
  ["_low", "_mid", "_hi"]

/-- The counters of the six real pieces (castling excluded), across all
four tier suffixes. -/
def pieceTierKeys : List String :=
  ["pawn", "pawn_low", "pawn_mid", "pawn_hi",
   "knight", "knight_low", "knight_mid", "knight_hi",
   "rook", "rook_low", "rook_mid", "rook_hi",
   "bishop", "bishop_low", "bishop_mid", "bishop_hi",
   "queen", "queen_low", "queen_mid", "queen_hi",
   "king", "king_low", "king_mid", "king_hi"]

/-- How often one game bumps counter `k` at ply `p`: the move at index
`p`, if any, contributes its `bumpsOf` multiplicity. -/
def contrib (g : Game) (k : String) (p : Nat) : Nat :=
  if p < g.moves.length then (bumpsOf g.welo g.belo p (g.moves.getD p [])).count k else 0

/-! ### Front-end blob and derived sums (src/visualization.js lines 60-125) -/

/-- One `{name, data}` element of `DATA.eventsByMove`. -/
structure Entry where
  name : String
  data : List Nat
deriving DecidableEq

/-- The `data.forEach((n, idx) => result.count(idx, n))` loop of
`sumGeneral`: element-wise accumulation of `d` into `acc`. -/
def addInto (acc : List Nat) (d : List Nat) : List Nat :=
  (d.enum).foldl (fun a q => VizCounts.count a q.1 q.2) acc

/-- `sumGeneral(name, predicate, aggregation)` (src/visualization.js
lines 76-92), as a function of the loaded blob; the display name does not
affect the data and is dropped. -/
def sumGeneral (blob : List Entry) (pred : String → Bool) (aggregation : String) :
    List Nat :=
  VizCounts.aggregateBy aggregation
    (blob.foldl (fun acc e => if pred e.name then addInto acc e.data else acc) [])

/-- The predicate of `sumRow` (src/visualization.js lines 96-101): the
regular expression match against `^pos_[a-h]([1-8])${suffix}$` together
with the captured-rank comparison `match[1] === row`. -/
def rowKeyMatch (suffix : String) (row : Char) (key : String) : Bool :=
  match key.data with
  | 'p' :: 'o' :: 's' :: '_' :: c :: d :: rest =>
      ('a' ≤ c && c ≤ 'h') && ('1' ≤ d && d ≤ '8') && rest == suffix.data && d == row
  | _ => false

/-- The predicate of `sumCol` (src/visualization.js lines 105-110):
`^pos_([a-h])[1-8]${suffix}$` with `match[1] === col`. -/
def colKeyMatch (suffix : String) (col : Char) (key : String) : Bool :=
  match key.data with
  | 'p' :: 'o' :: 's' :: '_' :: c :: d :: rest =>
      ('a' ≤ c && c ≤ 'h') && ('1' ≤ d && d ≤ '8') && rest == suffix.data && c == col
  | _ => false

/-- A key naming any per-cell destination series of the given tier:
`pos_<file><rank><suffix>`. -/
def cellKeyMatch (suffix : String) (key : String) : Bool :=
  match key.data with
  | 'p' :: 'o' :: 's' :: '_' :: c :: d :: rest =>
      ('a' ≤ c && c ≤ 'h') && ('1' ≤ d && d ≤ '8') && rest == suffix.data
  | _ => false

/-- `sumRow(row, suffix, aggregation)`. -/
def sumRow (blob : List Entry) (row : Char) (suffix : String) (aggregation : String) :
    List Nat :=
  sumGeneral blob (fun key => rowKeyMatch suffix row key) aggregation

/-- `sumCol(col, suffix, aggregation)`. -/
def sumCol (blob : List Entry) (col : Char) (suffix : String) (aggregation : String) :
    List Nat :=
  sumGeneral blob (fun key => colKeyMatch suffix col key) aggregation

/-- The row labels iterated by `processDataSources`
(`"12345678".split("")`). -/
def rowChars : List Char :=
  ['1', '2', '3', '4', '5', '6', '7', '8']

/-- The column labels iterated by `processDataSources`
(`"abcdefgh".split("")`). -/
def colChars : List Char :=
  ['a', 'b', 'c', 'd', 'e', 'f', 'g', 'h']

/-- A small concrete blob used to witness the coverage identity. -/
def demoBlob : List Entry :=
  [⟨"pos_a1_low", [0, 2]⟩, ⟨"pos_h8_low", [0, 5]⟩, ⟨"total", [9, 9]⟩]

/-- The rank character of a per-cell key (the `([1-8])` capture of
`sumRow`'s pattern, at index 5 of `pos_<file><rank><suffix>`). -/
def rankOfKey (key : String) : Char :=
  key.data.getD 5 ' '

/-- The file character of a per-cell key (the `([a-h])` capture of
`sumCol`'s pattern, at index 4). -/
def fileOfKey (key : String) : Char :=
  key.data.getD 4 ' '

/-! ### Lichess reader (src/etl.js lines 94-215) -/

/-- A character of the regex class `\s` (the inputs of interest contain
only plain spaces, tabs and line breaks). -/
def isSpaceC (c : Char) : Bool :=
  c = ' ' || c = '\t' || c = '\n' || c = '\r'

/-- A character of the regex class `[0-9]`. -/
def isDigitC (c : Char) : Bool :=
  '0' ≤ c && c ≤ '9'

/-- `parseInt` on a digit string. -/
def digitsToNat (l : List Char) : Nat :=
  l.foldl (fun a c => a * 10 + (c.toNat - '0'.toNat)) 0

/-- The `\s+(\S+) \{` tail of `MOVE_PATTERN` (src/etl.js line 95): at
least one whitespace, then a maximal non-whitespace token, then a literal
space and an opening brace.  Because `\S+` cannot contain whitespace and
the following literal is a space, only the maximal token can match.
Returns the token and the rest of the input after the brace. -/
def matchDotsTail (t : List Char) : Option (List Char × List Char) :=
  let sp := t.takeWhile isSpaceC
  let t2 := t.dropWhile isSpaceC
  if sp.isEmpty then none
  else
    let tok := t2.takeWhile (fun c => !isSpaceC c)
    let t3 := t2.dropWhile (fun c => !isSpaceC c)
    if tok.isEmpty then none
    else
      match t3 with
      | ' ' :: '\x7b' :: rest => some (tok, rest)
      | _ => none

/-- One attempt to match `MOVE_PATTERN`
(`/([0-9]+)(\.|\.\.\.)\s+(\S+) \{/g`, src/etl.js line 95) at the start of
`t`: the maximal digit run, then the dots alternation (the single-dot
alternative can only succeed when fewer than three dots follow, since
`\s+` cannot match a dot), then the tail.  Returns the captured digits,
whether the three-dot (black) alternative matched, the move token, and
the rest of the input. -/
def matchMoveAt (t : List Char) : Option (List Char × Bool × List Char × List Char) :=
  let digits := t.takeWhile isDigitC
  let t1 := t.dropWhile isDigitC
  if digits.isEmpty then none
  else
    match t1 with
    | '.' :: '.' :: '.' :: t2 =>
        match matchDotsTail t2 with
        | some (tok, rest) => some (digits, true, tok, rest)
        | none => none
    | '.' :: t2 =>
        match matchDotsTail t2 with
        | some (tok, rest) => some (digits, false, tok, rest)
        | none => none
    | _ => none

/-- `line.matchAll(MOVE_PATTERN)`: successive non-overlapping matches
scanning left to right; when no match starts at the current position the
scan advances one character.  `fuel` bounds the recursion; every step
consumes at least one character, so the line length suffices. -/
def moveScanAux : Nat → List Char → List (List Char × Bool × List Char)
  | 0, _ => []
  | _, [] => []
  | fuel + 1, c :: rest =>
      match matchMoveAt (c :: rest) with
      | some (digits, bl, tok, after) => (digits, bl, tok) :: moveScanAux fuel after
      | none => moveScanAux fuel rest

/-- All matches of `MOVE_PATTERN` in a line. -/
def moveScan (line : List Char) : List (List Char × Bool × List Char) :=
  moveScanAux line.length line

/-- `lichessMovesParse(line)` (src/etl.js lines 100-111): rebuild
`"W<n>.<move>"` / `"B<n>.<move>"` tokens from the matches (a single dot
marks White, `...` marks Black). -/
def lichessMovesParse (line : List Char) : List (List Char) :=
  (moveScan line).map (fun q =>
    (if q.2.1 then 'B' else 'W') :: ((Nat.repr (digitsToNat q.1)).data ++ '.' :: q.2.2))

/-- `DATE_PATTERN` (src/etl.js line 115):
`^\[Date\s+"(dddd).(dd).(dd)"\]$` with the three captures parsed. -/
def dateMatch (l : List Char) : Option (Nat × Nat × Nat) :=
  match l with
  | '[' :: 'D' :: 'a' :: 't' :: 'e' :: rest =>
      if (rest.takeWhile isSpaceC).isEmpty then none
      else
        match rest.dropWhile isSpaceC with
        | '"' :: y1 :: y2 :: y3 :: y4 :: '.' :: m1 :: m2 :: '.' :: d1 :: d2 :: '"' :: ']' :: [] =>
            if [y1, y2, y3, y4, m1, m2, d1, d2].all isDigitC then
              some (digitsToNat [y1, y2, y3, y4], digitsToNat [m1, m2],
                digitsToNat [d1, d2])
            else none
        | _ => none
  | _ => none

/-- The `Elo\s+"([0-9]+)"\]` tail common to both arms of `ELO_PATTERN`
(src/etl.js line 116). -/
def eloTail (rest : List Char) : Option Int :=
  match rest with
  | 'E' :: 'l' :: 'o' :: r0 =>
      if (r0.takeWhile isSpaceC).isEmpty then none
      else
        match r0.dropWhile isSpaceC with
        | '"' :: r2 =>
            let ds := r2.takeWhile isDigitC
            let r3 := r2.dropWhile isDigitC
            if ds.isEmpty then none
            else if r3 = ['"', ']'] then some (digitsToNat ds) else none
        | _ => none
  | _ => none

/-- `ELO_PATTERN`: `^\[(White|Black)Elo\s+"([0-9]+)"\]$`; `true` marks
White. -/
def eloMatch (l : List Char) : Option (Bool × Int) :=
  match l with
  | '[' :: 'W' :: 'h' :: 'i' :: 't' :: 'e' :: rest =>
      (eloTail rest).map (fun e => (true, e))
  | '[' :: 'B' :: 'l' :: 'a' :: 'c' :: 'k' :: rest =>
      (eloTail rest).map (fun e => (false, e))
  | _ => none

/-- `RESULT_PATTERN` (src/etl.js line 117): `^\[Result\s+"([^"]+)"\]$`. -/
def resultMatch (l : List Char) : Option (List Char) :=
  match l with
  | '[' :: 'R' :: 'e' :: 's' :: 'u' :: 'l' :: 't' :: rest =>
      if (rest.takeWhile isSpaceC).isEmpty then none
      else
        match rest.dropWhile isSpaceC with
        | '"' :: r2 =>
            let content := r2.takeWhile (fun c => c ≠ '"')
            let r3 := r2.dropWhile (fun c => c ≠ '"')
            if content.isEmpty then none
            else if r3 = ['"', ']'] then some content else none
        | _ => none
  | _ => none

/-- `MOVE_1_PATTERN` (src/etl.js line 118): `^([0-9]+)\.\s+(\S+)` as a
test. -/
def move1Match (l : List Char) : Bool :=
  let ds := l.takeWhile isDigitC
  if ds.isEmpty then false
  else
    match l.dropWhile isDigitC with
    | '.' :: r2 =>
        !(r2.takeWhile isSpaceC).isEmpty &&
          !((r2.dropWhile isSpaceC).takeWhile (fun c => !isSpaceC c)).isEmpty
    | _ => false

/-- `line.trim()`. -/
def trimC (l : List Char) : List Char :=
  ((l.dropWhile isSpaceC).reverse.dropWhile isSpaceC).reverse

/-- A game record emitted by `forEachLichessGame`'s callback (src/etl.js
lines 187-196); the `origin` field is the constant `"lichess"` and is
omitted. -/
structure LichessGame where
  index : Nat
  date : Nat × Nat × Nat
  result : List Char
  welo : Option Int
  belo : Option Int
  len : Nat
  moves : List (List Char)
deriving DecidableEq

/-- The accumulated parser state of `forEachLichessGame` (src/etl.js
lines 134-140), plus whether `lineReader.close()` has been called. -/
structure LState where
  index : Nat
  date : Option (Nat × Nat × Nat)
  result : Option (List Char)
  welo : Option Int
  belo : Option Int
  closed : Bool

/-- The parser state before any line is read. -/
def lichessInit : LState :=
  ⟨0, none, none, none, none, false⟩

/-- The `'line'` handler of `forEachLichessGame` (src/etl.js lines
152-212): trim, update metadata from the patterns, and on a movetext line
emit the game when date, result and at least two moves are present, then
clear the metadata. -/
def lichessLine (maxQ : Nat) (st : LState) (rawLine : List Char) :
    LState × Option LichessGame :=
  if st.closed then (st, none)
  else
    let line := trimC rawLine
    let date1 :=
      match dateMatch line with
      | some ymd => some ymd
      | none => st.date
    let elos :=
      match eloMatch line with
      | some (true, e) => (some e, st.belo)
      | some (false, e) => (st.welo, some e)
      | none => (st.welo, st.belo)
    let result1 :=
      match resultMatch line with
      | some r => some r
      | none => st.result
    if move1Match line then
      let moves := lichessMovesParse line
      if date1.isSome ∧ result1.isSome ∧ 2 ≤ moves.length then
        (⟨st.index + 1, none, none, none, none, decide (maxQ ≤ st.index + 1)⟩,
         some ⟨st.index, date1.getD (0, 0, 0), result1.getD [], elos.1, elos.2,
           moves.length, moves⟩)
      else
        (⟨st.index, none, none, none, none, st.closed⟩, none)
    else
      (⟨st.index, date1, result1, elos.1, elos.2, st.closed⟩, none)

/-- `forEachLichessGame(filename, maxQuantity, callback, ...)` as a pure
function: the list of game records emitted for the given input lines. -/
def forEachLichessGame (lines : List (List Char)) (maxQ : Nat) : List LichessGame :=
  (lines.foldl
    (fun acc line =>
      let step := lichessLine maxQ acc.1 line
      (step.1, acc.2 ++ (match step.2 with | some x => [x] | none => [])))
    (lichessInit, ([] : List LichessGame))).2

/-- The rated-format scenario input of the specification: metadata for a
game with White rated 1200 and Black rated 2000, followed by the movetext
line `1. e4 {comment} 1... e5 2. Nf3 Nc6`. -/
def c2Input : List (List Char) :=
  ["[Date \"2021.09.01\"]".data,
   "[Result \"1-0\"]".data,
   "[WhiteElo \"1200\"]".data,
   "[BlackElo \"2000\"]".data,
   "1. e4 \x7bcomment\x7d 1... e5 2. Nf3 Nc6".data]

end Gambit

namespace Gambit

/-! ### C3 / C4: bounds-safe `get` -/

/-- C3: for every counter (ETL or front-end) and every integer `n` with
`n < 0` or `n ≥` the series' current length, `get n` returns `0` (and,
being a total Lean function, never throws). -/
theorem get_out_of_range_eq_zero (data : List Nat) (n : Int)
    (h : n < 0 ∨ (data.length : Int) ≤ n) :
    EtlCounts.get data n = 0 ∧ VizCounts.get data n = 0 := by
  refine ⟨?_, ?_⟩
  · unfold EtlCounts.get
    rcases h with h | h
    · rw [if_pos (Or.inl (le_of_lt h))]
    · rw [if_pos (Or.inr h)]
  · unfold VizCounts.get
    rcases h with h | h
    · rw [if_pos (Or.inl (le_of_lt h))]
    · rw [if_pos (Or.inr h)]

/-- Witness for `get_out_of_range_eq_zero` at `data = [1,2,3]`, `n = 5`. -/
theorem get_out_of_range_eq_zero_witness :
    EtlCounts.get [1, 2, 3] 5 = 0 ∧ VizCounts.get [1, 2, 3] 5 = 0 :=
  get_out_of_range_eq_zero [1, 2, 3] 5 (by decide)

/-- C4: in both `Counts` classes, `get 0` is `0` unconditionally: even
right after `count 0` has made the stored value at index 0 positive, the
count at ply 0 is unobservable through `get`. -/
theorem get_zero_eq_zero (data : List Nat) (times : Nat) :
    (EtlCounts.count data 0).getD 0 0 = data.getD 0 0 + 1 ∧
    EtlCounts.get (EtlCounts.count data 0) 0 = 0 ∧
    EtlCounts.get data 0 = 0 ∧
    VizCounts.get (VizCounts.count data 0 times) 0 = 0 ∧
    VizCounts.get data 0 = 0 := by
  refine ⟨?_, ?_, ?_, ?_, ?_⟩
  · unfold EtlCounts.count
    cases data with
    | nil => rfl
    | cons a l => simp
  · unfold EtlCounts.get; rw [if_pos (Or.inl le_rfl)]
  · unfold EtlCounts.get; rw [if_pos (Or.inl le_rfl)]
  · unfold VizCounts.get; rw [if_pos (Or.inl le_rfl)]
  · unfold VizCounts.get; rw [if_pos (Or.inl le_rfl)]

/-! ### Counting lemmas for the aggregator -/

theorem replicate_zero_getD (k j : Nat) : (List.replicate k (0 : Nat)).getD j 0 = 0 := by
  rw [List.getD_eq_getElem?_getD, List.getElem?_replicate]
  split <;> rfl

theorem count_getD (l : List Nat) (i p : Nat) :
    (EtlCounts.count l i).getD p 0 = l.getD p 0 + (if p = i then 1 else 0) := by
  have hpad : ∀ q, (l ++ List.replicate (i + 1 - l.length) 0).getD q 0 = l.getD q 0 := by
    intro q
    by_cases hq : q < l.length
    · exact List.getD_append _ _ _ _ hq
    · rw [List.getD_append_right _ _ _ _ (le_of_not_lt hq), replicate_zero_getD,
        List.getD_eq_default _ _ (le_of_not_lt hq)]
  have hlen : i < (l ++ List.replicate (i + 1 - l.length) 0).length := by
    rw [List.length_append, List.length_replicate]; omega
  simp only [EtlCounts.count]
  rw [List.getD_eq_getElem?_getD, List.getElem?_set]
  by_cases hip : i = p
  · subst hip
    rw [if_pos rfl, if_pos hlen, Option.getD_some, hpad, if_pos rfl]
  · rw [if_neg hip, ← List.getD_eq_getElem?_getD, hpad,
      if_neg (fun h => hip h.symm), Nat.add_zero]

theorem bump_val (st : Agg) (n : String) (i : Nat) (k : String) (p : Nat) :
    val (bump st n i) k p = val st k p + (if k = n ∧ p = i then 1 else 0) := by
  unfold val bump
  by_cases hk : k = n
  · rw [if_pos hk, count_getD]
    by_cases hp : p = i
    · rw [if_pos hp, if_pos ⟨hk, hp⟩]
    · rw [if_neg hp, if_neg (fun h => hp h.2)]
  · rw [if_neg hk, if_neg (fun h => hk h.1), Nat.add_zero]

theorem bumpAll_val (st : Agg) (names : List String) (i : Nat) (k : String) (p : Nat) :
    val (bumpAll st names i) k p
      = val st k p + names.count k * (if p = i then 1 else 0) := by
  induction names generalizing st with
  | nil => simp [bumpAll]
  | cons n rest ih =>
    show val (bumpAll (bump st n i) rest i) k p = _
    rw [ih, bump_val]
    simp only [List.count_cons, beq_iff_eq]
    by_cases h2 : p = i
    · subst h2
      by_cases h1 : k = n
      · subst h1
        simp
        omega
      · rw [if_neg (fun h => h1 h.1), if_pos rfl, if_neg (fun h => h1 h.symm)]
        ring
    · rw [if_neg (fun h => h2 h.2), if_neg h2]
      ring

theorem processMove_eq_bumpAll (w b : Option Int) (st : Agg) (i : Nat) (m : List Char) :
    processMove w b st i m = bumpAll st (bumpsOf w b i m) i := by
  cases helo : moverElo w b m with
  | none =>
    cases hdot : m.findIdx? (fun c => c = '.') with
    | none =>
      simp only [processMove, bumpsOf, bumpAll, helo, hdot]
      rfl
    | some d =>
      cases hp : PIECES (m.getD (d + 1) ' ') with
      | none =>
        simp only [processMove, bumpsOf, bumpAll, helo, hdot, hp]
        rfl
      | some cat =>
        simp only [processMove, bumpsOf, bumpAll, helo, hdot, hp]
        rfl
  | some e =>
    cases hdot : m.findIdx? (fun c => c = '.') with
    | none =>
      simp only [processMove, bumpsOf, bumpAll, helo, hdot]
      rfl
    | some d =>
      cases hp : PIECES (m.getD (d + 1) ' ') with
      | none =>
        simp only [processMove, bumpsOf, bumpAll, helo, hdot, hp]
        rfl
      | some cat =>
        simp only [processMove, bumpsOf, bumpAll, helo, hdot, hp]
        rfl

theorem processMove_val (w b : Option Int) (st : Agg) (i : Nat) (m : List Char)
    (k : String) (p : Nat) :
    val (processMove w b st i m) k p
      = val st k p + (bumpsOf w b i m).count k * (if p = i then 1 else 0) := by
  rw [processMove_eq_bumpAll, bumpAll_val]

theorem processMovesFrom_val (w b : Option Int) (ms : List (List Char)) :
    ∀ (j : Nat) (st : Agg) (k : String) (p : Nat),
      val (processMovesFrom w b st j ms) k p
        = val st k p +
          (if j ≤ p ∧ p < j + ms.length
           then (bumpsOf w b p (ms.getD (p - j) [])).count k else 0) := by
  induction ms with
  | nil =>
    intro j st k p
    have h : ¬(j ≤ p ∧ p < j + ([] : List (List Char)).length) := by
      simp only [List.length_nil]; omega
    rw [if_neg h]
    rfl
  | cons m rest ih =>
    intro j st k p
    show val (processMovesFrom w b (processMove w b st j m) (j + 1) rest) k p = _
    rw [ih, processMove_val]
    by_cases hpj : p = j
    · subst hpj
      have h2 : ¬(p + 1 ≤ p ∧ p < p + 1 + rest.length) := by omega
      have h3 : p ≤ p ∧ p < p + (m :: rest).length := by simp
      rw [if_neg h2, if_pos h3, if_pos rfl, Nat.sub_self]
      simp
    · rw [if_neg (fun h => hpj h), Nat.mul_zero, Nat.add_zero]
      by_cases hc : j + 1 ≤ p ∧ p < j + 1 + rest.length
      · have hc' : j ≤ p ∧ p < j + (m :: rest).length := by
          simp only [List.length_cons]; omega
        have hsub : p - j = (p - (j + 1)) + 1 := by omega
        rw [if_pos hc, if_pos hc', hsub, List.getD_cons_succ]
      · have hc' : ¬(j ≤ p ∧ p < j + (m :: rest).length) := by
          simp only [List.length_cons]; omega
        rw [if_neg hc, if_neg hc']

theorem processGame_val (st : Agg) (g : Game) (k : String) (p : Nat) :
    val (processGame st g) k p = val st k p + contrib g k p := by
  unfold processGame contrib
  rw [processMovesFrom_val]
  simp

theorem processGames_val (gs : List Game) (k : String) (p : Nat) :
    val (processGames gs) k p = (gs.map (fun g => contrib g k p)).sum := by
  have H : ∀ (l : List Game) (st : Agg),
      val (l.foldl processGame st) k p
        = val st k p + (l.map (fun g => contrib g k p)).sum := by
    intro l
    induction l with
    | nil => intro st; simp
    | cons g rest ih =>
      intro st
      rw [List.foldl_cons, ih, processGame_val]
      simp [Nat.add_assoc]
  unfold processGames
  rw [H]
  simp [val, aggInit]

/-! ### Counter-name disjointness -/

theorem eloSuffix_mem (e : Int) : eloSuffix e ∈ tierSufs := by
  unfold eloSuffix tierSufs
  split_ifs <;> simp

theorem pos_append_ne (w t : String) (h : t.data.take 4 ≠ ['p', 'o', 's', '_']) :
    "pos_" ++ w ≠ t := by
  intro he
  apply h
  rw [← he, String.data_append]
  rfl

theorem pos_append2_ne (w s t : String) (h : t.data.take 4 ≠ ['p', 'o', 's', '_']) :
    ("pos_" ++ w) ++ s ≠ t := by
  intro he
  apply h
  rw [← he, String.data_append, String.data_append]
  rfl

theorem appendSuf_take4_ne (x s : String) (hx : x.data.take 4 ≠ ['p', 'o', 's', '_'])
    (hlen : 4 ≤ x.data.length) : (x ++ s).data.take 4 ≠ ['p', 'o', 's', '_'] := by
  rw [String.data_append, List.take_append_of_le_length hlen]
  exact hx

theorem append_suf_ne_self (x s : String) (hs : s.data ≠ []) : x ++ s ≠ x := by
  intro h
  have h2 : (x ++ s).data.length = x.data.length := by rw [h]
  rw [String.data_append, List.length_append] at h2
  exact hs (List.length_eq_zero.mp (by omega))

theorem tierSuf_data_ne_nil (s : String) (hs : s ∈ tierSufs) : s.data ≠ [] := by
  fin_cases hs <;> decide

theorem PIECES_mem (c : Char) (cat : String) (h : PIECES c = some cat) :
    cat ∈ pieceCats := by
  unfold PIECES at h
  split_ifs at h <;> simp_all [pieceCats]

theorem cat_take4 (cat : String) (hc : cat ∈ pieceCats) :
    cat.data.take 4 ≠ ['p', 'o', 's', '_'] := by
  fin_cases hc <;> decide

theorem cat_data_len4 (cat : String) (hc : cat ∈ pieceCats) : 4 ≤ cat.data.length := by
  fin_cases hc <;> decide

theorem cat_ne_tot (cat : String) (hc : cat ∈ pieceCats) (k : String)
    (hk : k ∈ (["total", "total_low", "total_mid", "total_hi"] : List String)) :
    cat ≠ k := by
  fin_cases hc <;> fin_cases hk <;> decide

theorem catSuf_ne_tot (cat s k : String) (hc : cat ∈ pieceCats) (hs : s ∈ tierSufs)
    (hk : k ∈ (["total", "total_low", "total_mid", "total_hi"] : List String)) :
    cat ++ s ≠ k := by
  fin_cases hc <;> fin_cases hs <;> fin_cases hk <;> decide

theorem totalSuf_ne_total (s : String) (hs : s ∈ tierSufs) : "total" ++ s ≠ "total" := by
  fin_cases hs <;> decide

theorem total_ne_cat (cat : String) (hc : cat ∈ pieceCats) : "total" ≠ cat := by
  fin_cases hc <;> decide

theorem totalSuf_ne_cat (s cat : String) (hs : s ∈ tierSufs) (hc : cat ∈ pieceCats) :
    "total" ++ s ≠ cat := by
  fin_cases hs <;> fin_cases hc <;> decide

theorem catSuf_ne_cat (cat s c : String) (hcat : cat ∈ pieceCats) (hs : s ∈ tierSufs)
    (hc : c ∈ pieceCats) : cat ++ s ≠ c := by
  fin_cases hcat <;> fin_cases hs <;> fin_cases hc <;> decide

theorem cat_ne_totalSuf (cat s : String) (hc : cat ∈ pieceCats) (hs : s ∈ tierSufs) :
    cat ≠ "total" ++ s := by
  fin_cases hc <;> fin_cases hs <;> decide

theorem catSuf_ne_totalSuf (cat s t : String) (hc : cat ∈ pieceCats)
    (hs : s ∈ tierSufs) (ht : t ∈ tierSufs) : cat ++ s ≠ "total" ++ t := by
  fin_cases hc <;> fin_cases hs <;> fin_cases ht <;> decide

theorem sum_map_ite_eq_count (l : List String) (a : String) :
    (l.map (fun c => if c = a then 1 else 0)).sum = l.count a := by
  induction l with
  | nil => rfl
  | cons x xs ih =>
    rw [List.map_cons, List.sum_cons, ih, List.count_cons]
    simp only [beq_iff_eq]
    by_cases h : x = a <;> omega

/-! ### Counting the effect of one move on each counter family -/

theorem bumpsOf_count_total (w b : Option Int) (i : Nat) (m : List Char) :
    (bumpsOf w b i m).count "total" = 1 := by
  cases helo : moverElo w b m with
  | none =>
    cases hdot : m.findIdx? (fun c => c = '.') with
    | none => simp only [bumpsOf, helo, hdot]; rfl
    | some d =>
      cases hp : PIECES (m.getD (d + 1) ' ') with
      | none => simp only [bumpsOf, helo, hdot, hp]; rfl
      | some cat =>
        have h1 := cat_ne_tot cat (PIECES_mem _ _ hp) "total" (by simp)
        simp only [bumpsOf, helo, hdot, hp]
        simp [List.count_cons, h1]
  | some e =>
    have h2 := totalSuf_ne_total (eloSuffix e) (eloSuffix_mem e)
    have h3 := pos_append_ne (whereName m) "total" (by decide)
    have h4 := pos_append2_ne (whereName m) (eloSuffix e) "total" (by decide)
    cases hdot : m.findIdx? (fun c => c = '.') with
    | none =>
      simp only [bumpsOf, helo, hdot]
      simp [List.count_cons, h2, h3, h4]
    | some d =>
      cases hp : PIECES (m.getD (d + 1) ' ') with
      | none =>
        simp only [bumpsOf, helo, hdot, hp]
        simp [List.count_cons, h2, h3, h4]
      | some cat =>
        have h1 := cat_ne_tot cat (PIECES_mem _ _ hp) "total" (by simp)
        have h5 := catSuf_ne_tot cat (eloSuffix e) "total" (PIECES_mem _ _ hp)
          (eloSuffix_mem e) (by simp)
        simp only [bumpsOf, helo, hdot, hp]
        simp [List.count_cons, h1, h2, h3, h4, h5]

theorem bumpsOf_count_cats (w b : Option Int) (i : Nat) (m : List Char) :
    (pieceCats.map (fun c => (bumpsOf w b i m).count c)).sum
      = if classifiable m then 1 else 0 := by
  cases helo : moverElo w b m with
  | none =>
    cases hdot : m.findIdx? (fun c => c = '.') with
    | none =>
      have key : ∀ c ∈ pieceCats, (bumpsOf w b i m).count c = 0 := by
        intro c hcc
        simp only [bumpsOf, helo, hdot]
        simp [List.count_cons, total_ne_cat c hcc]
      rw [List.map_congr_left key]
      simp only [classifiable, hdot]
      simp
    | some d =>
      cases hp : PIECES (m.getD (d + 1) ' ') with
      | none =>
        have key : ∀ c ∈ pieceCats, (bumpsOf w b i m).count c = 0 := by
          intro c hcc
          simp only [bumpsOf, helo, hdot, hp]
          simp [List.count_cons, total_ne_cat c hcc]
        rw [List.map_congr_left key]
        simp only [classifiable, hdot, hp]
        simp
      | some cat =>
        have hcat := PIECES_mem _ _ hp
        have key : ∀ c ∈ pieceCats,
            (bumpsOf w b i m).count c = if c = cat then 1 else 0 := by
          intro c hcc
          simp only [bumpsOf, helo, hdot, hp]
          simp only [List.append_nil, List.nil_append, List.cons_append,
            List.count_cons, List.count_nil, beq_iff_eq]
          by_cases hx : c = cat
          · simp [hx, total_ne_cat cat hcat]
          · simp [hx, Ne.symm hx, total_ne_cat c hcc]
        rw [List.map_congr_left key, sum_map_ite_eq_count]
        have h1 : pieceCats.count cat = 1 := by fin_cases hcat <;> decide
        rw [h1]
        simp only [classifiable, hdot, hp]
        simp
  | some e =>
    have hmem := eloSuffix_mem e
    cases hdot : m.findIdx? (fun c => c = '.') with
    | none =>
      have key : ∀ c ∈ pieceCats, (bumpsOf w b i m).count c = 0 := by
        intro c hcc
        simp only [bumpsOf, helo, hdot]
        simp [List.count_cons, total_ne_cat c hcc, totalSuf_ne_cat _ c hmem hcc,
          pos_append_ne _ c (cat_take4 c hcc), pos_append2_ne _ _ c (cat_take4 c hcc)]
      rw [List.map_congr_left key]
      simp only [classifiable, hdot]
      simp
    | some d =>
      cases hp : PIECES (m.getD (d + 1) ' ') with
      | none =>
        have key : ∀ c ∈ pieceCats, (bumpsOf w b i m).count c = 0 := by
          intro c hcc
          simp only [bumpsOf, helo, hdot, hp]
          simp [List.count_cons, total_ne_cat c hcc, totalSuf_ne_cat _ c hmem hcc,
            pos_append_ne _ c (cat_take4 c hcc), pos_append2_ne _ _ c (cat_take4 c hcc)]
        rw [List.map_congr_left key]
        simp only [classifiable, hdot, hp]
        simp
      | some cat =>
        have hcat := PIECES_mem _ _ hp
        have key : ∀ c ∈ pieceCats,
            (bumpsOf w b i m).count c = if c = cat then 1 else 0 := by
          intro c hcc
          simp only [bumpsOf, helo, hdot, hp]
          simp only [List.append_nil, List.nil_append, List.cons_append,
            List.count_cons, List.count_nil, beq_iff_eq]
          by_cases hx : c = cat
          · simp [hx, total_ne_cat cat hcat, totalSuf_ne_cat _ cat hmem hcat,
              pos_append_ne _ cat (cat_take4 cat hcat),
              pos_append2_ne _ _ cat (cat_take4 cat hcat),
              catSuf_ne_cat cat _ cat hcat hmem hcat]
          · simp [hx, Ne.symm hx, total_ne_cat c hcc,
              totalSuf_ne_cat _ c hmem hcc,
              pos_append_ne _ c (cat_take4 c hcc),
              pos_append2_ne _ _ c (cat_take4 c hcc),
              catSuf_ne_cat cat _ c hcat hmem hcc]
        rw [List.map_congr_left key, sum_map_ite_eq_count]
        have h1 : pieceCats.count cat = 1 := by fin_cases hcat <;> decide
        rw [h1]
        simp only [classifiable, hdot, hp]
        simp

theorem bumpsOf_count_tiered (w b : Option Int) (i : Nat) (m : List Char) :
    (bumpsOf w b i m).count "total_low" + (bumpsOf w b i m).count "total_mid"
      + (bumpsOf w b i m).count "total_hi"
      = if (moverElo w b m).isSome then 1 else 0 := by
  cases helo : moverElo w b m with
  | none =>
    have key : ∀ k ∈ (["total_low", "total_mid", "total_hi"] : List String),
        (bumpsOf w b i m).count k = 0 := by
      intro k hk
      have d1 : ("total" : String) ≠ k := by fin_cases hk <;> decide
      cases hdot : m.findIdx? (fun c => c = '.') with
      | none =>
        simp only [bumpsOf, helo, hdot]
        simp [List.count_cons, d1]
      | some d =>
        cases hp : PIECES (m.getD (d + 1) ' ') with
        | none =>
          simp only [bumpsOf, helo, hdot, hp]
          simp [List.count_cons, d1]
        | some cat =>
          have d2 : cat ≠ k :=
            cat_ne_tot cat (PIECES_mem _ _ hp) k (by fin_cases hk <;> simp)
          simp only [bumpsOf, helo, hdot, hp]
          simp [List.count_cons, d1, d2]
    rw [key _ (by simp), key _ (by simp), key _ (by simp)]
    simp [helo]
  | some e =>
    have hmem := eloSuffix_mem e
    have key : ∀ k ∈ (["total_low", "total_mid", "total_hi"] : List String),
        (bumpsOf w b i m).count k = if ("total" ++ eloSuffix e) = k then 1 else 0 := by
      intro k hk
      have d1 : ("total" : String) ≠ k := by fin_cases hk <;> decide
      have d3 : ("pos_" ++ whereName m) ≠ k :=
        pos_append_ne _ k (by fin_cases hk <;> decide)
      have d4 : (("pos_" ++ whereName m) ++ eloSuffix e) ≠ k :=
        pos_append2_ne _ _ k (by fin_cases hk <;> decide)
      cases hdot : m.findIdx? (fun c => c = '.') with
      | none =>
        simp only [bumpsOf, helo, hdot]
        simp [List.count_cons, d1, d3, d4]
      | some d =>
        cases hp : PIECES (m.getD (d + 1) ' ') with
        | none =>
          simp only [bumpsOf, helo, hdot, hp]
          simp [List.count_cons, d1, d3, d4]
        | some cat =>
          have hcat := PIECES_mem _ _ hp
          have d5 : cat ≠ k := cat_ne_tot cat hcat k (by fin_cases hk <;> simp)
          have d6 : cat ++ eloSuffix e ≠ k :=
            catSuf_ne_tot cat _ k hcat hmem (by fin_cases hk <;> simp)
          simp only [bumpsOf, helo, hdot, hp]
          simp [List.count_cons, d1, d3, d4, d5, d6]
    rw [key _ (by simp), key _ (by simp), key _ (by simp)]
    have hm2 := hmem
    simp [tierSufs] at hm2
    rcases hm2 with h3 | h3 | h3 <;> rw [h3] <;> simp

theorem bumpsOf_count_pos (w b : Option Int) (i : Nat) (m : List Char) :
    (bumpsOf w b i m).count ("pos_" ++ whereName m)
      = if (moverElo w b m).isSome then 1 else 0 := by
  cases helo : moverElo w b m with
  | none =>
    have d1 : ("total" : String) ≠ "pos_" ++ whereName m :=
      Ne.symm (pos_append_ne _ _ (by decide))
    cases hdot : m.findIdx? (fun c => c = '.') with
    | none =>
      simp only [bumpsOf, helo, hdot]
      simp [List.count_cons, d1]
    | some d =>
      cases hp : PIECES (m.getD (d + 1) ' ') with
      | none =>
        simp only [bumpsOf, helo, hdot, hp]
        simp [List.count_cons, d1]
      | some cat =>
        have hcat := PIECES_mem _ _ hp
        have d2 : cat ≠ "pos_" ++ whereName m :=
          Ne.symm (pos_append_ne _ cat (cat_take4 cat hcat))
        simp only [bumpsOf, helo, hdot, hp]
        simp [List.count_cons, d1, d2]
  | some e =>
    have hmem := eloSuffix_mem e
    have d1 : ("total" : String) ≠ "pos_" ++ whereName m :=
      Ne.symm (pos_append_ne _ _ (by decide))
    have d2 : "total" ++ eloSuffix e ≠ "pos_" ++ whereName m :=
      Ne.symm (pos_append_ne _ _ (appendSuf_take4_ne "total" _ (by decide) (by decide)))
    have d3 : ("pos_" ++ whereName m) ++ eloSuffix e ≠ "pos_" ++ whereName m :=
      append_suf_ne_self _ _ (tierSuf_data_ne_nil _ hmem)
    cases hdot : m.findIdx? (fun c => c = '.') with
    | none =>
      simp only [bumpsOf, helo, hdot]
      simp [List.count_cons, d1, d2, d3]
    | some d =>
      cases hp : PIECES (m.getD (d + 1) ' ') with
      | none =>
        simp only [bumpsOf, helo, hdot, hp]
        simp [List.count_cons, d1, d2, d3]
      | some cat =>
        have hcat := PIECES_mem _ _ hp
        have d4 : cat ≠ "pos_" ++ whereName m :=
          Ne.symm (pos_append_ne _ cat (cat_take4 cat hcat))
        have d5 : cat ++ eloSuffix e ≠ "pos_" ++ whereName m :=
          Ne.symm (pos_append_ne _ _
            (appendSuf_take4_ne cat _ (cat_take4 cat hcat) (cat_data_len4 cat hcat)))
        simp only [bumpsOf, helo, hdot, hp]
        simp [List.count_cons, d1, d2, d3, d4, d5]

theorem bumpsOf_count_totSuf (w b : Option Int) (i : Nat) (m : List Char) (e : Int)
    (he : moverElo w b m = some e) :
    (bumpsOf w b i m).count ("total" ++ eloSuffix e) = 1 := by
  have hmem := eloSuffix_mem e
  have d1 : ("total" : String) ≠ "total" ++ eloSuffix e :=
    Ne.symm (totalSuf_ne_total _ hmem)
  have d2 : ("pos_" ++ whereName m) ≠ "total" ++ eloSuffix e :=
    pos_append_ne _ _ (appendSuf_take4_ne "total" _ (by decide) (by decide))
  have d3 : ("pos_" ++ whereName m) ++ eloSuffix e ≠ "total" ++ eloSuffix e :=
    pos_append2_ne _ _ _ (appendSuf_take4_ne "total" _ (by decide) (by decide))
  cases hdot : m.findIdx? (fun c => c = '.') with
  | none =>
    simp only [bumpsOf, he, hdot]
    simp [List.count_cons, d1, d2, d3]
  | some d =>
    cases hp : PIECES (m.getD (d + 1) ' ') with
    | none =>
      simp only [bumpsOf, he, hdot, hp]
      simp [List.count_cons, d1, d2, d3]
    | some cat =>
      have hcat := PIECES_mem _ _ hp
      have d4 : cat ≠ "total" ++ eloSuffix e := cat_ne_totalSuf cat _ hcat hmem
      have d5 : cat ++ eloSuffix e ≠ "total" ++ eloSuffix e :=
        catSuf_ne_totalSuf cat _ _ hcat hmem hmem
      simp only [bumpsOf, he, hdot, hp]
      simp [List.count_cons, d1, d2, d3, d4, d5]

/-! ### Summation helpers -/

theorem sum_map_add {α : Type} (l : List α) (u v : α → Nat) :
    (l.map (fun x => u x + v x)).sum = (l.map u).sum + (l.map v).sum := by
  induction l with
  | nil => rfl
  | cons a t ih => simp [ih]; ring

theorem sum_map_comm {α β : Type} (A : List α) (B : List β) (f : α → β → Nat) :
    (A.map (fun a => (B.map (fun b => f a b)).sum)).sum
      = (B.map (fun b => (A.map (fun a => f a b)).sum)).sum := by
  induction A with
  | nil => simp
  | cons a A ih =>
    rw [List.map_cons, List.sum_cons, ih, ← sum_map_add]
    refine congrArg List.sum (List.map_congr_left ?_)
    intro b _
    rw [List.map_cons, List.sum_cons]

/-! ### C5: "total" versus the piece-category counters -/

/-- C5: after any sequence of games is processed, at every ply the
"total" counter is at least the sum of the seven piece-category
counters, with equality exactly when every move at that ply, in every
processed game, was classifiable by piece. -/
theorem total_vs_piece_categories (gs : List Game) (p : Nat) :
    (pieceCats.map (fun c => val (processGames gs) c p)).sum
        ≤ val (processGames gs) "total" p ∧
      ((pieceCats.map (fun c => val (processGames gs) c p)).sum
          = val (processGames gs) "total" p ↔
        ∀ g ∈ gs, p < g.moves.length → classifiable (g.moves.getD p []) = true) := by
  have htot : val (processGames gs) "total" p
      = (gs.map (fun g => if p < g.moves.length then 1 else 0)).sum := by
    rw [processGames_val]
    refine congrArg List.sum (List.map_congr_left ?_)
    intro g _
    unfold contrib
    by_cases h : p < g.moves.length
    · rw [if_pos h, if_pos h, bumpsOf_count_total]
    · rw [if_neg h, if_neg h]
  have hcats : (pieceCats.map (fun c => val (processGames gs) c p)).sum
      = (gs.map (fun g => if p < g.moves.length then
          (if classifiable (g.moves.getD p []) then 1 else 0) else 0)).sum := by
    have step1 : (pieceCats.map (fun c => val (processGames gs) c p)).sum
        = (pieceCats.map (fun c => (gs.map (fun g => contrib g c p)).sum)).sum := by
      refine congrArg List.sum (List.map_congr_left ?_)
      intro c _
      rw [processGames_val]
    rw [step1, sum_map_comm]
    refine congrArg List.sum (List.map_congr_left ?_)
    intro g _
    by_cases h : p < g.moves.length
    · have hc : ∀ c ∈ pieceCats,
          contrib g c p = (bumpsOf g.welo g.belo p (g.moves.getD p [])).count c := by
        intro c _
        unfold contrib
        rw [if_pos h]
      rw [List.map_congr_left hc, bumpsOf_count_cats, if_pos h]
    · have hc : ∀ c ∈ pieceCats, contrib g c p = 0 := by
        intro c _
        unfold contrib
        rw [if_neg h]
      rw [List.map_congr_left hc, if_neg h]
      simp
  have hsplit : ∀ g ∈ gs, (fun g => if p < g.moves.length then 1 else 0) g =
      (fun g => (if p < g.moves.length then
          (if classifiable (g.moves.getD p []) then 1 else 0) else 0)
        + (if p < g.moves.length ∧ ¬ classifiable (g.moves.getD p []) = true
           then 1 else 0)) g := by
    intro g _
    simp only []
    by_cases h : p < g.moves.length
    · by_cases h2 : classifiable (g.moves.getD p []) = true
      · rw [if_pos h, if_pos h, if_pos h2, if_neg (fun hand => hand.2 h2)]
      · rw [if_pos h, if_pos h, if_neg h2, if_pos ⟨h, h2⟩]
    · rw [if_neg h, if_neg h, if_neg (fun hand => h hand.1)]
  rw [htot, hcats, List.map_congr_left hsplit, sum_map_add]
  constructor
  · exact Nat.le_add_right _ _
  · constructor
    · intro heq
      have hU : (gs.map (fun g =>
          if p < g.moves.length ∧ ¬ classifiable (g.moves.getD p []) = true
          then 1 else 0)).sum = 0 := by omega
      rw [List.sum_eq_zero_iff] at hU
      intro g hg hlen
      by_cases h2 : classifiable (g.moves.getD p []) = true
      · exact h2
      · exfalso
        have h1 := hU _ (List.mem_map_of_mem _ hg)
        rw [if_pos ⟨hlen, h2⟩] at h1
        exact one_ne_zero h1
    · intro hall
      have hU : ∀ g ∈ gs, (fun g =>
          if p < g.moves.length ∧ ¬ classifiable (g.moves.getD p []) = true
          then 1 else 0) g = (fun _ => 0) g := by
        intro g hg
        simp only []
        by_cases hlen : p < g.moves.length
        · rw [if_neg (fun hand => hand.2 (hall g hg hlen))]
        · rw [if_neg (fun hand => hlen hand.1)]
      rw [List.map_congr_left hU]
      simp

/-! ### C6: tiered totals never exceed the untiered total -/

/-- C6: after any sequence of games is processed, at every ply the sum
of the three tiered total counters is at most the untiered total. -/
theorem tiered_totals_le_total (gs : List Game) (p : Nat) :
    val (processGames gs) "total_low" p + val (processGames gs) "total_mid" p
      + val (processGames gs) "total_hi" p ≤ val (processGames gs) "total" p := by
  rw [processGames_val, processGames_val, processGames_val, processGames_val]
  rw [← sum_map_add gs (fun g => contrib g "total_low" p) (fun g => contrib g "total_mid" p),
    ← sum_map_add gs (fun g => contrib g "total_low" p + contrib g "total_mid" p)
      (fun g => contrib g "total_hi" p)]
  refine List.sum_le_sum ?_
  intro g _
  unfold contrib
  by_cases h : p < g.moves.length
  · rw [if_pos h, if_pos h, if_pos h, if_pos h, bumpsOf_count_total,
      bumpsOf_count_tiered]
    split <;> omega
  · rw [if_neg h, if_neg h, if_neg h, if_neg h]

/-! ### C7: the rating tier comes from the mover's own rating -/

/-- C7: the tier used for tiered increments is computed per move from
the rating of the color that made the move: processing a move whose
token starts with `'W'` is independent of the black rating (and
symmetrically for `'B'`), and when the mover's rating is `e` the tiered
total incremented is exactly `"total" ++ eloSuffix e`. -/
theorem tier_from_mover (w w' b b' : Option Int) (st : Agg) (i : Nat)
    (m : List Char) (p : Nat) (e : Int) :
    (m.getD 0 ' ' = 'W' → processMove w b st i m = processMove w b' st i m) ∧
    (m.getD 0 ' ' = 'B' → processMove w b st i m = processMove w' b st i m) ∧
    (moverElo w b m = some e →
      val (processMove w b st i m) ("total" ++ eloSuffix e) p
        = val st ("total" ++ eloSuffix e) p + (if p = i then 1 else 0)) := by
  refine ⟨?_, ?_, ?_⟩
  · intro hW
    have hm : moverElo w b m = moverElo w b' m := by
      unfold moverElo
      rw [hW]
      simp
    simp only [processMove, hm]
  · intro hB
    have hm : moverElo w b m = moverElo w' b m := by
      unfold moverElo
      rw [hB]
      simp
    simp only [processMove, hm]
  · intro he
    rw [processMove_val, bumpsOf_count_totSuf w b i m e he]
    simp

/-! ### C1: the untiered "pos_" counters require a known rating -/

/-- C1 (amended): the untiered `"pos_" ++ destination` counter is
incremented at the move's ply exactly when the mover's rating is known;
a move with an unknown rating leaves every `pos_` counter untouched. -/
theorem pos_counter_iff_known_elo (w b : Option Int) (st : Agg) (i : Nat)
    (m : List Char) (p : Nat) :
    val (processMove w b st i m) ("pos_" ++ whereName m) p
      = val st ("pos_" ++ whereName m) p
        + (if p = i ∧ (moverElo w b m).isSome then 1 else 0) := by
  rw [processMove_val, bumpsOf_count_pos]
  by_cases h1 : p = i <;> by_cases h2 : (moverElo w b m).isSome <;> simp [h1, h2]

/-- C1 (counterexample): the move `"W1.e4"` in a game whose ratings are
both unknown resolves to destination `e4` and is counted in `"total"`,
yet `pos_e4` is not incremented at its ply — contradicting the claim
that the untiered destination counter is incremented for every move. -/
theorem pos_counter_unknown_elo_cex :
    whereName "W1.e4".data = "e4" ∧
    val (processGame aggInit ⟨none, none, ["W1.e4".data]⟩) "total" 0 = 1 ∧
    val (processGame aggInit ⟨none, none, ["W1.e4".data]⟩) "pos_e4" 0 = 0 := by
  decide

/-! ### C10: castling scenario -/

/-- C10: processing a game with white rating 1500 whose move at ply `i`
is a white castling token (first character `'O'` after the dot, no
resolvable destination) increments `pos_castle` and `pos_castle_mid` by
one at that ply and leaves every real-piece counter (all tiers of pawn,
knight, rook, bishop, queen, king) unchanged at that ply. -/
theorem castling_scenario (st : Agg) (g : Game) (i : Nat) (d : Nat)
    (hw : g.welo = some 1500)
    (hi : i < g.moves.length)
    (hW : (g.moves.getD i []).getD 0 ' ' = 'W')
    (hdot : (g.moves.getD i []).findIdx? (fun c => c = '.') = some d)
    (hO : (g.moves.getD i []).getD (d + 1) ' ' = 'O')
    (hrc : getMoveRC (g.moves.getD i []) = none) :
    val (processGame st g) "pos_castle" i = val st "pos_castle" i + 1 ∧
    val (processGame st g) "pos_castle_mid" i = val st "pos_castle_mid" i + 1 ∧
    pieceTierKeys.map (fun k => val (processGame st g) k i)
      = pieceTierKeys.map (fun k => val st k i) := by
  have hm : moverElo g.welo g.belo (g.moves.getD i []) = some 1500 := by
    unfold moverElo
    rw [hW, if_pos rfl, hw]
  have hwh : whereName (g.moves.getD i []) = "castle" := by
    unfold whereName
    rw [hrc]
  have hbumps : bumpsOf g.welo g.belo i (g.moves.getD i [])
      = ["total", "total" ++ eloSuffix 1500, "pos_" ++ "castle",
         ("pos_" ++ "castle") ++ eloSuffix 1500, "castling",
         "castling" ++ eloSuffix 1500] := by
    simp only [bumpsOf, hm, hdot, hO, hwh]
    rfl
  have hc : ∀ k, val (processGame st g) k i
      = val st k i + (bumpsOf g.welo g.belo i (g.moves.getD i [])).count k := by
    intro k
    rw [processGame_val]
    unfold contrib
    rw [if_pos hi]
  refine ⟨?_, ?_, ?_⟩
  · rw [hc, hbumps]
    have h1 : (["total", "total" ++ eloSuffix 1500, "pos_" ++ "castle",
        ("pos_" ++ "castle") ++ eloSuffix 1500, "castling",
        "castling" ++ eloSuffix 1500] : List String).count "pos_castle" = 1 := by decide
    rw [h1]
  · rw [hc, hbumps]
    have h1 : (["total", "total" ++ eloSuffix 1500, "pos_" ++ "castle",
        ("pos_" ++ "castle") ++ eloSuffix 1500, "castling",
        "castling" ++ eloSuffix 1500] : List String).count "pos_castle_mid" = 1 := by decide
    rw [h1]
  · refine List.map_congr_left ?_
    intro k hk
    rw [hc, hbumps]
    have h1 : ∀ k ∈ pieceTierKeys,
        (["total", "total" ++ eloSuffix 1500, "pos_" ++ "castle",
          ("pos_" ++ "castle") ++ eloSuffix 1500, "castling",
          "castling" ++ eloSuffix 1500] : List String).count k = 0 := by decide
    rw [h1 k hk]
    omega

/-- Witness for `castling_scenario`: the game `welo = 1500`,
`moves = ["W1.O-O"]`, at ply 0. -/
theorem castling_scenario_witness :
    val (processGame aggInit ⟨some 1500, none, ["W1.O-O".data]⟩) "pos_castle" 0
        = val aggInit "pos_castle" 0 + 1 ∧
      val (processGame aggInit ⟨some 1500, none, ["W1.O-O".data]⟩) "pos_castle_mid" 0
        = val aggInit "pos_castle_mid" 0 + 1 ∧
      pieceTierKeys.map
          (fun k => val (processGame aggInit ⟨some 1500, none, ["W1.O-O".data]⟩) k 0)
        = pieceTierKeys.map (fun k => val aggInit k 0) :=
  castling_scenario aggInit ⟨some 1500, none, ["W1.O-O".data]⟩ 0 2 rfl (by decide)
    (by decide) (by decide) (by decide) (by decide)

/-- Witness for `tier_from_mover`: a white move ignores the black rating,
a black move ignores the white rating, and a 1200-rated white mover bumps
the `_low` tiered total. -/
theorem tier_from_mover_witness :
    (processMove (some 1200) (some 2000) aggInit 0 "W1.e4".data
        = processMove (some 1200) (some 5) aggInit 0 "W1.e4".data) ∧
      (processMove (some 3) (some 2000) aggInit 1 "B1.e5".data
        = processMove (some 77) (some 2000) aggInit 1 "B1.e5".data) ∧
      (val (processMove (some 1200) (some 2000) aggInit 0 "W1.e4".data)
          ("total" ++ eloSuffix 1200) 0
        = val aggInit ("total" ++ eloSuffix 1200) 0 + (if 0 = 0 then 1 else 0)) :=
  ⟨(tier_from_mover (some 1200) (some 0) (some 2000) (some 5) aggInit 0
      "W1.e4".data 0 1200).1 (by decide),
   (tier_from_mover (some 3) (some 77) (some 2000) (some 0) aggInit 1
      "B1.e5".data 0 0).2.1 (by decide),
   (tier_from_mover (some 1200) (some 0) (some 2000) (some 0) aggInit 0
      "W1.e4".data 0 1200).2.2 (by decide)⟩

/-! ### C8: aggregation by color -/

theorem filterIdxFrom_cons (r n a : Nat) (l : List Nat) :
    VizCounts.filterIdxFrom r n (a :: l)
      = (if n % 2 = r then [a] else []) ++ VizCounts.filterIdxFrom r (n + 1) l := by
  unfold VizCounts.filterIdxFrom
  rw [List.enumFrom_cons, List.filter_cons]
  by_cases h : n % 2 = r
  · simp [h]
  · simp [h]

theorem filterIdxFrom_succ (n : Nat) (l : List Nat) :
    VizCounts.filterIdxFrom 0 (n + 1) l = VizCounts.filterIdxFrom 1 n l ∧
    VizCounts.filterIdxFrom 1 (n + 1) l = VizCounts.filterIdxFrom 0 n l := by
  induction l generalizing n with
  | nil => exact ⟨rfl, rfl⟩
  | cons a t ih =>
    rw [filterIdxFrom_cons, filterIdxFrom_cons, filterIdxFrom_cons, filterIdxFrom_cons]
    constructor
    · rw [(ih (n + 1)).1]
      congr 1
      have hiff : (n + 1) % 2 = 0 ↔ n % 2 = 1 := by omega
      by_cases h : n % 2 = 1
      · rw [if_pos (hiff.mpr h), if_pos h]
      · rw [if_neg (fun hh => h (hiff.mp hh)), if_neg h]
    · rw [(ih (n + 1)).2]
      congr 1
      have hiff : (n + 1) % 2 = 1 ↔ n % 2 = 0 := by omega
      by_cases h : n % 2 = 0
      · rw [if_pos (hiff.mpr h), if_pos h]
      · rw [if_neg (fun hh => h (hiff.mp hh)), if_neg h]

theorem filterIdxFrom_zero_cons (a : Nat) (t : List Nat) :
    VizCounts.filterIdxFrom 0 0 (a :: t) = a :: VizCounts.filterIdxFrom 1 0 t ∧
    VizCounts.filterIdxFrom 1 0 (a :: t) = VizCounts.filterIdxFrom 0 0 t := by
  constructor
  · rw [filterIdxFrom_cons, (filterIdxFrom_succ 0 t).1]
    rfl
  · rw [filterIdxFrom_cons, (filterIdxFrom_succ 0 t).2]
    rfl


theorem filter_color_spec (l : List Nat) :
    (VizCounts.filterIdxFrom 0 0 l).length = (l.length + 1) / 2 ∧
    (VizCounts.filterIdxFrom 1 0 l).length = l.length / 2 ∧
    (∀ i, (VizCounts.filterIdxFrom 0 0 l).getD i 0 = l.getD (2 * i) 0) ∧
    (∀ i, (VizCounts.filterIdxFrom 1 0 l).getD i 0 = l.getD (2 * i + 1) 0) := by
  induction l with
  | nil =>
    refine ⟨rfl, rfl, ?_, ?_⟩ <;> intro i <;> rfl
  | cons a t ih =>
    obtain ⟨hwl, hbl, hwg, hbg⟩ := ih
    obtain ⟨hwc, hbc⟩ := filterIdxFrom_zero_cons a t
    refine ⟨?_, ?_, ?_, ?_⟩
    · rw [hwc, List.length_cons, hbl, List.length_cons]
      omega
    · rw [hbc, hwl, List.length_cons]
    · intro i
      rw [hwc]
      cases i with
      | zero => rfl
      | succ j =>
        rw [List.getD_cons_succ, hbg j,
          show 2 * (j + 1) = (2 * j + 1) + 1 by omega, List.getD_cons_succ]
    · intro i
      rw [hbc, hwg i, List.getD_cons_succ]

theorem aggPairs_spec (l : List Nat) :
    (VizCounts.aggPairs l).length = l.length / 2 ∧
    ∀ i, i < l.length / 2 →
      (VizCounts.aggPairs l).getD i 0 = l.getD (2 * i) 0 + l.getD (2 * i + 1) 0 := by
  induction l using VizCounts.aggPairs.induct with
  | case1 a b rest ih =>
    obtain ⟨hl, hg⟩ := ih
    refine ⟨?_, ?_⟩
    · simp only [VizCounts.aggPairs, List.length_cons, hl]
      omega
    · intro i hi
      cases i with
      | zero => rfl
      | succ j =>
        have hL : (VizCounts.aggPairs (a :: b :: rest)).getD (j + 1) 0
            = (VizCounts.aggPairs rest).getD j 0 := by
          rw [show VizCounts.aggPairs (a :: b :: rest)
              = (a + b) :: VizCounts.aggPairs rest from rfl, List.getD_cons_succ]
        have hr1 : (a :: b :: rest : List Nat).getD (2 * (j + 1)) 0
            = rest.getD (2 * j) 0 := by
          rw [show 2 * (j + 1) = 2 * j + 1 + 1 by omega, List.getD_cons_succ,
            List.getD_cons_succ]
        have hr2 : (a :: b :: rest : List Nat).getD (2 * (j + 1) + 1) 0
            = rest.getD (2 * j + 1) 0 := by
          rw [show 2 * (j + 1) + 1 = 2 * j + 1 + 1 + 1 by omega, List.getD_cons_succ,
            List.getD_cons_succ]
        rw [hL, hg j (by simp only [List.length_cons] at hi; omega), hr1, hr2]
  | case2 t h =>
    cases t with
    | nil => exact ⟨rfl, fun i hi => absurd hi (by simp)⟩
    | cons a t2 =>
      cases t2 with
      | nil =>
        refine ⟨by simp [VizCounts.aggPairs], ?_⟩
        exact fun i hi => absurd hi (by simp)
      | cons b r => exact absurd rfl (h a b r)

/-- C8: on a series of even length `L`, "aggregated" mode yields the
`L/2` pairwise sums (`i`-th entry = entry `2i` + entry `2i+1`), "white"
mode the even-indexed subsequence, and "black" mode the odd-indexed
subsequence. -/
theorem aggregateBy_color_modes (data : List Nat) (i : Nat)
    (h : data.length % 2 = 0) (hi : i < data.length / 2) :
    (VizCounts.aggregateBy "aggregated" data).length = data.length / 2 ∧
    (VizCounts.aggregateBy "white" data).length = data.length / 2 ∧
    (VizCounts.aggregateBy "black" data).length = data.length / 2 ∧
    (VizCounts.aggregateBy "aggregated" data).getD i 0
      = data.getD (2 * i) 0 + data.getD (2 * i + 1) 0 ∧
    (VizCounts.aggregateBy "white" data).getD i 0 = data.getD (2 * i) 0 ∧
    (VizCounts.aggregateBy "black" data).getD i 0 = data.getD (2 * i + 1) 0 := by
  have hagg : VizCounts.aggregateBy "aggregated" data = VizCounts.aggPairs data := rfl
  have hwhite : VizCounts.aggregateBy "white" data
      = VizCounts.filterIdxFrom 0 0 data := rfl
  have hblack : VizCounts.aggregateBy "black" data
      = VizCounts.filterIdxFrom 1 0 data := rfl
  obtain ⟨hal, hag⟩ := aggPairs_spec data
  obtain ⟨hwl, hbl, hwg, hbg⟩ := filter_color_spec data
  refine ⟨?_, ?_, ?_, ?_, ?_, ?_⟩
  · rw [hagg, hal]
  · rw [hwhite, hwl]; omega
  · rw [hblack, hbl]
  · rw [hagg, hag i hi]
  · rw [hwhite, hwg i]
  · rw [hblack, hbg i]

/-- Witness for `aggregateBy_color_modes` at `data = [1, 2, 3, 4]`,
`i = 1`. -/
theorem aggregateBy_color_modes_witness :
    (VizCounts.aggregateBy "aggregated" [1, 2, 3, 4]).length = [1, 2, 3, 4].length / 2 ∧
    (VizCounts.aggregateBy "white" [1, 2, 3, 4]).length = [1, 2, 3, 4].length / 2 ∧
    (VizCounts.aggregateBy "black" [1, 2, 3, 4]).length = [1, 2, 3, 4].length / 2 ∧
    (VizCounts.aggregateBy "aggregated" [1, 2, 3, 4]).getD 1 0
      = [1, 2, 3, 4].getD 2 0 + [1, 2, 3, 4].getD 3 0 ∧
    (VizCounts.aggregateBy "white" [1, 2, 3, 4]).getD 1 0 = [1, 2, 3, 4].getD 2 0 ∧
    (VizCounts.aggregateBy "black" [1, 2, 3, 4]).getD 1 0 = [1, 2, 3, 4].getD 3 0 :=
  aggregateBy_color_modes [1, 2, 3, 4] 1 (by decide) (by decide)

/-! ### C2: the rated-reader scenario -/

/-- C2 (counterexample): the specified rated input does not emit exactly
one game record — it emits none. -/
theorem rated_reader_scenario_cex :
    (forEachLichessGame c2Input 100).length ≠ 1 := by
  decide

/-- C2 (amended): on the specified rated input, `MOVE_PATTERN` (which
requires every move token to be followed by a space and an opening
brace) matches only the annotated first move, so the movetext parses to
the single token `W1.e4`; that is below the two-move minimum, and the
reader emits no game record at all. -/
theorem rated_reader_scenario_amended :
    moveScan "1. e4 \x7bcomment\x7d 1... e5 2. Nf3 Nc6".data
        = [(['1'], false, "e4".data)] ∧
    lichessMovesParse "1. e4 \x7bcomment\x7d 1... e5 2. Nf3 Nc6".data
        = ["W1.e4".data] ∧
    (lichessMovesParse "1. e4 \x7bcomment\x7d 1... e5 2. Nf3 Nc6".data).length < 2 ∧
    forEachLichessGame c2Input 100 = [] := by
  decide

/-! ### C9: destination coverage identity -/

theorem char_eq_of_toNat (a b : Char) (h : a.toNat = b.toNat) : a = b :=
  Char.eq_of_val_eq (UInt32.ext h)

theorem mem_rowChars_of_between (d : Char) (h1 : '1' ≤ d) (h2 : d ≤ '8') :
    d ∈ rowChars := by
  have h1' : 49 ≤ d.toNat := by
    rw [Char.le_def, UInt32.le_def] at h1
    exact h1
  have h2' : d.toNat ≤ 56 := by
    rw [Char.le_def, UInt32.le_def] at h2
    exact h2
  have h3 : d.toNat = 49 ∨ d.toNat = 50 ∨ d.toNat = 51 ∨ d.toNat = 52 ∨
      d.toNat = 53 ∨ d.toNat = 54 ∨ d.toNat = 55 ∨ d.toNat = 56 := by omega
  rcases h3 with h | h | h | h | h | h | h | h
  · rw [char_eq_of_toNat d '1' h]; decide
  · rw [char_eq_of_toNat d '2' h]; decide
  · rw [char_eq_of_toNat d '3' h]; decide
  · rw [char_eq_of_toNat d '4' h]; decide
  · rw [char_eq_of_toNat d '5' h]; decide
  · rw [char_eq_of_toNat d '6' h]; decide
  · rw [char_eq_of_toNat d '7' h]; decide
  · rw [char_eq_of_toNat d '8' h]; decide

theorem mem_colChars_of_between (c : Char) (h1 : 'a' ≤ c) (h2 : c ≤ 'h') :
    c ∈ colChars := by
  have h1' : 97 ≤ c.toNat := by
    rw [Char.le_def, UInt32.le_def] at h1
    exact h1
  have h2' : c.toNat ≤ 104 := by
    rw [Char.le_def, UInt32.le_def] at h2
    exact h2
  have h3 : c.toNat = 97 ∨ c.toNat = 98 ∨ c.toNat = 99 ∨ c.toNat = 100 ∨
      c.toNat = 101 ∨ c.toNat = 102 ∨ c.toNat = 103 ∨ c.toNat = 104 := by omega
  rcases h3 with h | h | h | h | h | h | h | h
  · rw [char_eq_of_toNat c 'a' h]; decide
  · rw [char_eq_of_toNat c 'b' h]; decide
  · rw [char_eq_of_toNat c 'c' h]; decide
  · rw [char_eq_of_toNat c 'd' h]; decide
  · rw [char_eq_of_toNat c 'e' h]; decide
  · rw [char_eq_of_toNat c 'f' h]; decide
  · rw [char_eq_of_toNat c 'g' h]; decide
  · rw [char_eq_of_toNat c 'h' h]; decide

theorem vizCount_getD (l : List Nat) (n t p : Nat) :
    (VizCounts.count l n t).getD p 0 = l.getD p 0 + (if p = n then t else 0) := by
  have hpad : ∀ q, (l ++ List.replicate (n + 1 - l.length) 0).getD q 0 = l.getD q 0 := by
    intro q
    by_cases hq : q < l.length
    · exact List.getD_append _ _ _ _ hq
    · rw [List.getD_append_right _ _ _ _ (le_of_not_lt hq), replicate_zero_getD,
        List.getD_eq_default _ _ (le_of_not_lt hq)]
  have hlen : n < (l ++ List.replicate (n + 1 - l.length) 0).length := by
    rw [List.length_append, List.length_replicate]; omega
  simp only [VizCounts.count]
  rw [List.getD_eq_getElem?_getD, List.getElem?_set]
  by_cases hip : n = p
  · subst hip
    rw [if_pos rfl, if_pos hlen, Option.getD_some, hpad, if_pos rfl]
  · rw [if_neg hip, ← List.getD_eq_getElem?_getD, hpad,
      if_neg (fun h => hip h.symm), Nat.add_zero]

theorem addInto_from_getD (p : Nat) :
    ∀ (d : List Nat) (n0 : Nat) (acc : List Nat),
      ((d.enumFrom n0).foldl (fun a q => VizCounts.count a q.1 q.2) acc).getD p 0
        = acc.getD p 0 +
          (if n0 ≤ p ∧ p < n0 + d.length then d.getD (p - n0) 0 else 0) := by
  intro d
  induction d with
  | nil =>
    intro n0 acc
    have h : ¬(n0 ≤ p ∧ p < n0 + ([] : List Nat).length) := by
      simp only [List.length_nil]; omega
    rw [if_neg h]
    rfl
  | cons x d ih =>
    intro n0 acc
    rw [List.enumFrom_cons, List.foldl_cons, ih, vizCount_getD]
    by_cases hpn : p = n0
    · subst hpn
      have h2 : ¬(p + 1 ≤ p ∧ p < p + 1 + d.length) := by omega
      have h3 : p ≤ p ∧ p < p + (x :: d).length := by simp
      rw [if_neg h2, if_pos h3, if_pos rfl, Nat.sub_self]
      simp
    · rw [if_neg hpn, Nat.add_zero]
      by_cases hc : n0 + 1 ≤ p ∧ p < n0 + 1 + d.length
      · have hc' : n0 ≤ p ∧ p < n0 + (x :: d).length := by
          simp only [List.length_cons]; omega
        have hsub : p - n0 = (p - (n0 + 1)) + 1 := by omega
        rw [if_pos hc, if_pos hc', hsub, List.getD_cons_succ]
      · have hc' : ¬(n0 ≤ p ∧ p < n0 + (x :: d).length) := by
          simp only [List.length_cons]; omega
        rw [if_neg hc, if_neg hc']

theorem addInto_getD (acc d : List Nat) (p : Nat) :
    (addInto acc d).getD p 0 = acc.getD p 0 + d.getD p 0 := by
  unfold addInto
  rw [show d.enum = d.enumFrom 0 from rfl, addInto_from_getD]
  by_cases h : p < d.length
  · rw [if_pos ⟨Nat.zero_le p, by omega⟩, Nat.sub_zero]
  · rw [if_neg (fun hand => h (by omega)),
      List.getD_eq_default _ _ (le_of_not_lt h)]

theorem sumGeneral_sep_getD (blob : List Entry) (pred : String → Bool) (p : Nat) :
    (sumGeneral blob pred "separate").getD p 0
      = ((blob.filter (fun e => pred e.name)).map (fun e => e.data.getD p 0)).sum := by
  have hacc : ∀ (bl : List Entry) (acc : List Nat),
      ((bl.foldl (fun acc e => if pred e.name then addInto acc e.data else acc) acc)).getD p 0
        = acc.getD p 0 +
          ((bl.filter (fun e => pred e.name)).map (fun e => e.data.getD p 0)).sum := by
    intro bl
    induction bl with
    | nil => intro acc; simp
    | cons e rest ih =>
      intro acc
      rw [List.foldl_cons]
      by_cases h : pred e.name
      · rw [if_pos h, ih, addInto_getD]
        simp only [List.filter_cons, h, if_true, List.map_cons, List.sum_cons]
        omega
      · have h2 : pred e.name = false := by
          revert h; cases pred e.name <;> simp
        rw [if_neg h, ih]
        simp only [List.filter_cons, h2, Bool.false_eq_true, if_false]
  unfold sumGeneral
  rw [show ∀ x : List Nat, VizCounts.aggregateBy "separate" x = x from fun x => rfl,
    hacc]
  simp

theorem filter_map_sum_ite {α : Type} (l : List α) (q : α → Bool) (f : α → Nat) :
    ((l.filter q).map f).sum = (l.map (fun x => if q x then f x else 0)).sum := by
  induction l with
  | nil => rfl
  | cons x t ih =>
    by_cases h : q x
    · simp only [List.filter_cons, h, if_true, List.map_cons, List.sum_cons, ih]
    · have h2 : q x = false := by
        revert h; cases q x <;> simp
      simp only [List.filter_cons, h2, Bool.false_eq_true, if_false, List.map_cons,
        List.sum_cons, ih]
      omega

theorem sum_map_ite_count_char (l : List Char) (a : Char) (w : Nat) :
    (l.map (fun c => if a = c then w else 0)).sum = l.count a * w := by
  induction l with
  | nil => simp
  | cons x t ih =>
    rw [List.map_cons, List.sum_cons, ih, List.count_cons]
    by_cases h : a = x
    · rw [if_pos h, if_pos (by exact beq_iff_eq.mpr h.symm)]
      ring
    · rw [if_neg h, if_neg (by simp [beq_iff_eq]; exact fun hh => h hh.symm)]
      ring

theorem rowKeyMatch_eq (suffix : String) (r : Char) (key : String) :
    rowKeyMatch suffix r key = (cellKeyMatch suffix key && (rankOfKey key == r)) := by
  unfold rowKeyMatch cellKeyMatch rankOfKey
  split
  · rename_i c d rest heq
    rw [heq]
    rfl
  · simp

theorem colKeyMatch_eq (suffix : String) (r : Char) (key : String) :
    colKeyMatch suffix r key = (cellKeyMatch suffix key && (fileOfKey key == r)) := by
  unfold colKeyMatch cellKeyMatch fileOfKey
  split
  · rename_i c d rest heq
    rw [heq]
    rfl
  · simp

theorem cell_rank_mem (suffix : String) (key : String)
    (hcell : cellKeyMatch suffix key = true) :
    rankOfKey key ∈ rowChars ∧ fileOfKey key ∈ colChars := by
  unfold cellKeyMatch at hcell
  unfold rankOfKey fileOfKey
  revert hcell
  split
  · rename_i c d rest heq
    intro hcell
    simp only [Bool.and_eq_true, decide_eq_true_eq] at hcell
    obtain ⟨⟨hc, hd⟩, -⟩ := hcell
    rw [heq]
    exact ⟨mem_rowChars_of_between d hd.1 hd.2, mem_colChars_of_between c hc.1 hc.2⟩
  · intro hcell
    cases hcell

theorem row_indicator (suffix : String) (key : String) (w : Nat) :
    (rowChars.map (fun r => if rowKeyMatch suffix r key then w else 0)).sum
      = if cellKeyMatch suffix key then w else 0 := by
  by_cases hcell : cellKeyMatch suffix key = true
  · have hrank := (cell_rank_mem suffix key hcell).1
    have hpt : ∀ r ∈ rowChars,
        (if rowKeyMatch suffix r key then w else 0)
          = (if rankOfKey key = r then w else 0) := by
      intro r _
      rw [rowKeyMatch_eq, hcell]
      simp [beq_iff_eq]
    rw [List.map_congr_left hpt, sum_map_ite_count_char]
    have h1 : rowChars.count (rankOfKey key) = 1 := by
      have hh := hrank
      simp only [rowChars, List.mem_cons, List.not_mem_nil, or_false] at hh
      rcases hh with h | h | h | h | h | h | h | h <;> rw [h] <;> decide
    rw [h1, Nat.one_mul, if_pos hcell]
  · have hf : cellKeyMatch suffix key = false := by
      revert hcell
      cases cellKeyMatch suffix key <;> simp
    have hpt : ∀ r ∈ rowChars,
        (if rowKeyMatch suffix r key then w else 0) = 0 := by
      intro r _
      rw [rowKeyMatch_eq, hf]
      simp
    rw [List.map_congr_left hpt, hf]
    simp

theorem col_indicator (suffix : String) (key : String) (w : Nat) :
    (colChars.map (fun r => if colKeyMatch suffix r key then w else 0)).sum
      = if cellKeyMatch suffix key then w else 0 := by
  by_cases hcell : cellKeyMatch suffix key = true
  · have hfile := (cell_rank_mem suffix key hcell).2
    have hpt : ∀ r ∈ colChars,
        (if colKeyMatch suffix r key then w else 0)
          = (if fileOfKey key = r then w else 0) := by
      intro r _
      rw [colKeyMatch_eq, hcell]
      simp [beq_iff_eq]
    rw [List.map_congr_left hpt, sum_map_ite_count_char]
    have h1 : colChars.count (fileOfKey key) = 1 := by
      have hh := hfile
      simp only [colChars, List.mem_cons, List.not_mem_nil, or_false] at hh
      rcases hh with h | h | h | h | h | h | h | h <;> rw [h] <;> decide
    rw [h1, Nat.one_mul, if_pos hcell]
  · have hf : cellKeyMatch suffix key = false := by
      revert hcell
      cases cellKeyMatch suffix key <;> simp
    have hpt : ∀ r ∈ colChars,
        (if colKeyMatch suffix r key then w else 0) = 0 := by
      intro r _
      rw [colKeyMatch_eq, hf]
      simp
    rw [List.map_congr_left hpt, hf]
    simp

/-- C9: for any loaded blob, tier suffix and ply, the row sums added over
all 8 rows equal the sum of all per-cell `pos_` series at that ply and
tier, and the column sums added over all 8 columns equal the same total
(destination coverage identity). -/
theorem destination_coverage (blob : List Entry) (suffix : String)
    (hs : suffix ∈ (["", "_low", "_mid", "_hi"] : List String)) (p : Nat) :
    ((rowChars.map (fun r => (sumRow blob r suffix "separate").getD p 0)).sum
        = ((blob.filter (fun e => cellKeyMatch suffix e.name)).map
            (fun e => e.data.getD p 0)).sum) ∧
    ((colChars.map (fun c => (sumCol blob c suffix "separate").getD p 0)).sum
        = ((blob.filter (fun e => cellKeyMatch suffix e.name)).map
            (fun e => e.data.getD p 0)).sum) := by
  clear hs
  constructor
  · have h1 : ∀ r ∈ rowChars, (sumRow blob r suffix "separate").getD p 0
        = (blob.map (fun e =>
            if rowKeyMatch suffix r e.name then e.data.getD p 0 else 0)).sum := by
      intro r _
      unfold sumRow
      rw [sumGeneral_sep_getD, filter_map_sum_ite]
    rw [List.map_congr_left h1, sum_map_comm, filter_map_sum_ite]
    refine congrArg List.sum (List.map_congr_left ?_)
    intro e _
    exact row_indicator suffix e.name (e.data.getD p 0)
  · have h1 : ∀ c ∈ colChars, (sumCol blob c suffix "separate").getD p 0
        = (blob.map (fun e =>
            if colKeyMatch suffix c e.name then e.data.getD p 0 else 0)).sum := by
      intro c _
      unfold sumCol
      rw [sumGeneral_sep_getD, filter_map_sum_ite]
    rw [List.map_congr_left h1, sum_map_comm, filter_map_sum_ite]
    refine congrArg List.sum (List.map_congr_left ?_)
    intro e _
    exact col_indicator suffix e.name (e.data.getD p 0)

/-- Witness for `destination_coverage` on a small concrete blob with
suffix `"_low"` at ply 1. -/
theorem destination_coverage_witness :
    ((rowChars.map (fun r => (sumRow demoBlob r "_low" "separate").getD 1 0)).sum
        = ((demoBlob.filter (fun e => cellKeyMatch "_low" e.name)).map
            (fun e => e.data.getD 1 0)).sum) ∧
    ((colChars.map (fun c => (sumCol demoBlob c "_low" "separate").getD 1 0)).sum
        = ((demoBlob.filter (fun e => cellKeyMatch "_low" e.name)).map
            (fun e => e.data.getD 1 0)).sum) :=
  destination_coverage demoBlob "_low" (by decide) 1

end Gambit
